import Mathlib

/-!
Verification of the offer-scrape pipeline (`src/offer.py`).

The source is a single Python file that scrapes a retail offers page:
it stabilizes an infinite-scroll page, extracts offer cards, parses a
discount percentage out of the title, resolves links, deduplicates and
sorts the records, persists JSON/CSV snapshots, and diffs against the
previous run's snapshot.  The browser/DOM layer is an external
collaborator; we embed the pure pipeline over the values that layer
delivers (per-card raw text fields, the sequence of measured page
heights, an abstract file store).
-/

namespace OfferScrape

/-- One extracted offer record, mirroring the dict built in
`extract_cards` (`offer.py` lines 77-83): five fields, with
`discount_percent` optional (`None` in Python ↦ `none`). -/
structure Rec where
  brand : String
  discount_percent : Option Nat
  title : String
  categories : String
  link : String
  deriving DecidableEq, Repr

/-! ### Percent extractor — `PCT_RE = re.compile(r"(\d{1,3})\s*%")` and
`PCT_RE.search(title)` (`offer.py` lines 24, 74-75).

On a `str` pattern Python's `re` gives `\d` and `\s` their Unicode
meanings (all Unicode decimal digits, all Unicode whitespace) and
`int(m.group(1))` converts any decimal digits; those character tables
are standard-library data, not repository code.  Modelled from the
spec: the matching engine below is therefore parametric in the digit
class `isDig`, the whitespace class `isSp` and the per-digit value
`dval` of the stdlib; its theorems assume of the tables only facts
that are true of Unicode — `%` is neither a digit nor whitespace, no
whitespace character is a digit, and below code point 128 the classes
restrict to the ASCII fragments defined first. -/

/-- The ASCII fragment of `\d`: the digits `0`-`9` (code points
48-57).  Below 128, Python's Unicode digit class is exactly this. -/
def isAsciiDigit (c : Char) : Bool := 48 ≤ c.toNat && c.toNat ≤ 57

/-- The ASCII fragment of `\s`: tab through carriage return (9-13),
the separator controls 28-31, and the space 32.  Below 128, Python's
Unicode whitespace class is exactly this. -/
def isAsciiSpace (c : Char) : Bool :=
  (9 ≤ c.toNat && c.toNat ≤ 13) || (28 ≤ c.toNat && c.toNat ≤ 31) ||
    c.toNat == 32

/-- The value `int()` gives an ASCII digit. -/
def asciiDigitVal (c : Char) : Nat := c.toNat - 48

/-- Numeric value of the matched digit string, as `int(m.group(1))`
computes it from the stdlib's per-digit values `dval`. -/
def digitsValG (dval : Char → Nat) (ds : List Char) : Nat :=
  ds.foldl (fun a c => a * 10 + dval c) 0

/-- Greedy `\s*`: skip the maximal run of whitespace characters. -/
def skipWsG (isSp : Char → Bool) : List Char → List Char
  | [] => []
  | c :: cs => if isSp c then skipWsG isSp cs else c :: cs

/-- Try to match `\d{k}\s*%` at the head of `cs` (exactly `k` digits,
then optional whitespace, then a percent sign); return the digits'
value on success. -/
def tryDigitsG (isDig isSp : Char → Bool) (dval : Char → Nat)
    (k : Nat) (cs : List Char) : Option Nat :=
  if (cs.take k).length = k && (cs.take k).all isDig then
    match skipWsG isSp (cs.drop k) with
    | c :: _ => if c = '%' then some (digitsValG dval (cs.take k)) else none
    | [] => none
  else none

/-- Match the pattern `(\d{1,3})\s*%` anchored at the head of `cs`:
the regex engine tries the greedy three-digit reading first, then
backtracks to two and one digits. -/
def matchHereG (isDig isSp : Char → Bool) (dval : Char → Nat)
    (cs : List Char) : Option Nat :=
  match tryDigitsG isDig isSp dval 3 cs with
  | some n => some n
  | none =>
    match tryDigitsG isDig isSp dval 2 cs with
    | some n => some n
    | none => tryDigitsG isDig isSp dval 1 cs

/-- `re.search` semantics: try the pattern at each start position from
the left and return the first match. -/
def pctSearchAuxG (isDig isSp : Char → Bool) (dval : Char → Nat) :
    List Char → Option Nat
  | [] => none
  | c :: cs =>
    match matchHereG isDig isSp dval (c :: cs) with
    | some n => some n
    | none => pctSearchAuxG isDig isSp dval cs

/-- `PCT_RE.search(s)` followed by `int(m.group(1))` when a match
exists, with the stdlib's character tables as parameters. -/
def pctSearchG (isDig isSp : Char → Bool) (dval : Char → Nat)
    (s : String) : Option Nat :=
  pctSearchAuxG isDig isSp dval s.data

/-- `PCT_RE.search(title)` / `int(m.group(1))` as used in record
assembly (`offer.py` lines 74-75): the engine at the ASCII instance of
the tables.  On ASCII titles this is the program exactly; the
extraction claims are uniform in the discount value, and the percent
claims are proved over the parametric engine. -/
def pctSearch (s : String) : Option Nat :=
  pctSearchG isAsciiDigit isAsciiSpace asciiDigitVal s

/-- The spec's declarative reading of the pattern: position `p` of
`cs` starts a substring of 1–3 digits followed by optional whitespace
and a percent sign, and the digits read as the integer `n`. -/
def SpecMatchAtG (isDig isSp : Char → Bool) (dval : Char → Nat)
    (cs : List Char) (p n : Nat) : Prop :=
  ∃ pre ds ws rest, cs = pre ++ (ds ++ (ws ++ '%' :: rest)) ∧
    pre.length = p ∧ 1 ≤ ds.length ∧ ds.length ≤ 3 ∧
    ds.all isDig = true ∧ ws.all isSp = true ∧ n = digitsValG dval ds

/-- Agreement of the stdlib tables with the ASCII fragments below code
point 128 — a fact of Unicode, assumed only to derive the concrete
ASCII examples. -/
def AsciiAgree (isDig isSp : Char → Bool) (dval : Char → Nat) : Prop :=
  ∀ c : Char, c.toNat < 128 →
    isDig c = isAsciiDigit c ∧ isSp c = isAsciiSpace c ∧
    (isDig c = true → dval c = asciiDigitVal c)

/-! ### Link resolver — `abs_url` (`offer.py` lines 26-31).

`urllib.parse.urljoin` is standard-library code, not part of this
repository.  Modelled from the spec: the spec (§4.2) treats resolution
abstractly and only fixes the failure policy; we embed the one stdlib
fact the code relies on — `urljoin(base, "")` returns `base` (the
stdlib short-circuits an empty reference to the base URL) — and leave
the join of a non-empty href as an abstract parameter `f`, where
`f base href = none` models `urljoin` raising. -/
def urljoinModel (f : String → String → Option String)
    (base url : String) : Option String :=
  if url = "" then some base else f base url

/-- `href or ""`: Python's falsy coercion of a missing/empty href. -/
def hrefOrEmpty : Option String → String
  | none => ""
  | some h => h

/-- `abs_url(base, href)`: join `href or ""` against `base`, falling
back to `href or ""` unchanged if the join raises. -/
def abs_url (f : String → String → Option String)
    (base : String) (href : Option String) : String :=
  match urljoinModel f base (hrefOrEmpty href) with
  | some u => u
  | none => hrefOrEmpty href

/-- `OFFERS_URL` (`offer.py` line 19). -/
def OFFERS_URL : String :=
  "https://www.mcarthurglen.com/en/outlets/ca/designer-outlet-vancouver/offers/"

/-! ### Card extraction — `extract_cards` (`offer.py` lines 59-94).

The DOM layer is abstracted away: a raw card carries the strings the
safe accessors (`safe_inner_text`, `safe_attr`) deliver for one card
node — each already `""` on any read failure. -/

/-- The raw per-card values read from the page: brand, title,
categories texts and the chosen link element's href (empty when no
readable href). -/
structure RawCard where
  brand : String
  title : String
  categories : String
  href : String
  deriving DecidableEq, Repr

/-- Assembly of one record (`offer.py` lines 63-83): brand defaults to
"Unknown" when empty, the discount is parsed from the title, the link
resolved against `OFFERS_URL`. -/
def assembleCard (f : String → String → Option String) (c : RawCard) : Rec :=
  { brand := if c.brand = "" then "Unknown" else c.brand
    discount_percent := pctSearch c.title
    title := c.title
    categories := c.categories
    link := abs_url f OFFERS_URL (some c.href) }

/-- The dedup key `(r["brand"], r["title"], r["link"])`
(`offer.py` line 88). -/
def tkey (r : Rec) : String × String × String := (r.brand, r.title, r.link)

/-- The dedup loop (`offer.py` lines 86-92): a dict keyed by `tkey`
keeps the first record seen for each key, in insertion order. -/
def dedupAux (seen : List (String × String × String)) :
    List Rec → List Rec
  | [] => []
  | r :: rs =>
    if tkey r ∈ seen then dedupAux seen rs
    else r :: dedupAux (tkey r :: seen) rs

/-- `uniq = {}` … `out = list(uniq.values())`. -/
def dedupTriple (l : List Rec) : List Rec := dedupAux [] l

/-- First component of the Python sort key
`-(r["discount_percent"] if r["discount_percent"] is not None else -1)`
(`offer.py` line 93): a present percentage `p` maps to `-p`, an absent
one to `-(-1) = 1`. -/
def pctKeyInt : Option Nat → Int
  | some p => -(p : Int)
  | none => 1

/-- The full sort key tuple `(-(pct or -1), brand)`. -/
def skey (r : Rec) : Int × String := (pctKeyInt r.discount_percent, r.brand)

/-- Python tuple comparison of the sort keys: lexicographic. -/
def sortLE (a b : Rec) : Prop :=
  (skey a).1 < (skey b).1 ∨ ((skey a).1 = (skey b).1 ∧ (skey a).2 ≤ (skey b).2)

instance : DecidableRel sortLE := fun a b => by
  unfold sortLE; infer_instance

instance : IsTotal Rec sortLE where
  total a b := by
    unfold sortLE
    rcases lt_trichotomy (skey a).1 (skey b).1 with h | h | h
    · exact Or.inl (Or.inl h)
    · rcases le_total (skey a).2 (skey b).2 with h2 | h2
      · exact Or.inl (Or.inr ⟨h, h2⟩)
      · exact Or.inr (Or.inr ⟨h.symm, h2⟩)
    · exact Or.inr (Or.inl h)

instance : IsTrans Rec sortLE where
  trans a b c hab hbc := by
    rcases hab with h1 | ⟨h1, h1b⟩ <;> rcases hbc with h2 | ⟨h2, h2b⟩
    · exact Or.inl (h1.trans h2)
    · exact Or.inl (h2 ▸ h1)
    · exact Or.inl (h1 ▸ h2)
    · exact Or.inr ⟨h1.trans h2, h1b.trans h2b⟩

/-- `out.sort(key=...)` (`offer.py` line 93): Python's `list.sort` is a
stable sort by the key tuple; `List.insertionSort` is the canonical
stable sort by the same (total, transitive) comparison. -/
def sortRecs (l : List Rec) : List Rec := l.insertionSort sortLE

/-- `extract_cards` (`offer.py` lines 59-94) on the raw cards the page
enumerates: assemble each record, dedup by `(brand, title, link)`
keeping first occurrences, then stable-sort by the key of line 93. -/
def extract_cards (f : String → String → Option String)
    (cards : List RawCard) : List Rec :=
  sortRecs (dedupTriple (cards.map (assembleCard f)))

/-- The ordering the spec asserts between adjacent output records:
either the first discount is strictly greater, or the discounts are
equal (including both absent) and the brands are in (case-sensitive,
code-point lexicographic) order, or the first discount is present and
the second absent. -/
def claimRel (a b : Rec) : Prop :=
  (∃ p1 p2, a.discount_percent = some p1 ∧ b.discount_percent = some p2 ∧ p2 < p1) ∨
  (a.discount_percent = b.discount_percent ∧ a.brand ≤ b.brand) ∨
  (a.discount_percent ≠ none ∧ b.discount_percent = none)

/-! ### Snapshot store — `save_json`, `save_csv`, `load_json`
(`offer.py` lines 96-113).

`json.dumps`/`json.loads` are stdlib collaborators; we embed the file
store at the JSON-value level: a file either is absent, holds text that
fails to parse as JSON, or holds a JSON value (what `dumps` wrote and
`loads` recovers).  CSV output is kept as an opaque rendering of the
rows. -/

/-- A JSON value (the shapes the program reads and writes). -/
inductive Json where
  | null : Json
  | num (n : Int) : Json
  | str (s : String) : Json
  | arr (xs : List Json) : Json
  | obj (kvs : List (String × Json)) : Json

/-- JSON encoding of an optional discount: `None` serializes as
`null`, never as `0`. -/
def encOpt : Option Nat → Json
  | none => Json.null
  | some p => Json.num p

/-- JSON encoding of one record: the dict literal of
`offer.py` lines 77-83 with its five keys. -/
def encodeRec (r : Rec) : Json :=
  Json.obj [("brand", Json.str r.brand),
            ("discount_percent", encOpt r.discount_percent),
            ("title", Json.str r.title),
            ("categories", Json.str r.categories),
            ("link", Json.str r.link)]

/-- What one file on disk holds. -/
inductive FileContent where
  | absent : FileContent
  | invalid : FileContent
  | valid (j : Json) : FileContent
  | csvData (rows : List Rec) : FileContent

/-- The local file store, path to content. -/
def FS : Type := String → FileContent

/-- `save_json(rows, path)` (`offer.py` lines 96-97): write the JSON
array of the encoded rows at `path`. -/
def save_json (rows : List Rec) (fs : FS) (path : String) : FS :=
  fun p => if p = path then FileContent.valid (Json.arr (rows.map encodeRec)) else fs p

/-- `save_csv(rows, path)` (`offer.py` lines 99-105): write the CSV
rendering at `path`. -/
def save_csv (rows : List Rec) (fs : FS) (path : String) : FS :=
  fun p => if p = path then FileContent.csvData rows else fs p

/-- `load_json(path)` (`offer.py` lines 107-113): the empty list when
the file does not exist, the empty list when its content fails to
parse (the `except` arm), otherwise the parsed JSON value unchanged —
no shape validation. -/
def load_json (fs : FS) (path : String) : Json :=
  match fs path with
  | FileContent.absent => Json.arr []
  | FileContent.invalid => Json.arr []
  | FileContent.valid j => j
  | FileContent.csvData _ => Json.arr []

/-- Decoding one record back from its JSON object.  A modelling shim:
Python needs no decoder (the loaded dicts are the records); this reads
the five keys back so that round-trips can be stated record-to-record. -/
def decodeRec (j : Json) : Option Rec :=
  match j with
  | Json.obj [("brand", Json.str b), ("discount_percent", d),
              ("title", Json.str t), ("categories", Json.str c),
              ("link", Json.str l)] =>
    match d with
    | Json.null => some ⟨b, none, t, c, l⟩
    | Json.num n => if 0 ≤ n then some ⟨b, some n.toNat, t, c, l⟩ else none
    | _ => none
  | _ => none

/-- Decoding a stored snapshot: the records of a JSON array, nothing
for any other shape. -/
def recsOfJson (j : Json) : List Rec :=
  match j with
  | Json.arr xs => xs.filterMap decodeRec
  | _ => []

/-! ### Diff engine — `diff` (`offer.py` lines 115-120). -/

/-- The change-detection key `(o.get("brand"), o.get("title"))`. -/
def dkey (r : Rec) : String × String := (r.brand, r.title)

/-- `diff(old, new)`: `ok`/`nk` are the key sets of the two snapshots;
`added` filters `new` by membership in `nk - ok`, `removed` filters
`old` by membership in `ok - nk`, each preserving its list's order. -/
def diff (old new : List Rec) : List Rec × List Rec :=
  let ok := old.map dkey
  let nk := new.map dkey
  let added := new.filter (fun o => decide (dkey o ∈ nk ∧ dkey o ∉ ok))
  let removed := old.filter (fun o => decide (dkey o ∈ ok ∧ dkey o ∉ nk))
  (added, removed)

/-! ### One run's state updates — `run` (`offer.py` lines 136-172).

Browser work (navigation, scrolling, extraction) is abstracted into
the extracted `rows`; what remains of `run` is the snapshot pipeline of
lines 151-169, embedded in source order: load the previous snapshot
first, save latest JSON and CSV, diff previous against current, then
rotate current into the previous slot. -/

/-- `STATE_JSON` (`offer.py` line 20). -/
def STATE_JSON : String := "offers_latest.json"

/-- `STATE_PREV` (`offer.py` line 21). -/
def STATE_PREV : String := "offers_latest.prev.json"

/-- `STATE_CSV` (`offer.py` line 22). -/
def STATE_CSV : String := "offers_latest.csv"

/-- Result of one run: the file store afterwards and the reported
added/removed lists. -/
structure RunResult where
  fs : FS
  added : List Rec
  removed : List Rec

/-- The snapshot pipeline of `run` (`offer.py` lines 151-169). -/
def runModel (fs : FS) (rows : List Rec) : RunResult :=
  let prev := recsOfJson (load_json fs STATE_PREV)
  let fs1 := save_json rows fs STATE_JSON
  let fs2 := save_csv rows fs1 STATE_CSV
  let d := diff prev rows
  let fs3 := save_json rows fs2 STATE_PREV
  ⟨fs3, d.1, d.2⟩

/-! ### Page stabilizer — `auto_scroll` (`offer.py` lines 33-44).

The page is abstracted into the sequence `hs` of heights the loop
would measure round by round. -/

/-- One loop body iteration on the state `(last_h, idle)` with measured
height `h` (`offer.py` lines 39-43): a non-increase bumps the idle
counter, an increase resets it; `last_h` becomes `h` either way. -/
def scrollStep (s : Nat × Nat) (h : Nat) : Nat × Nat :=
  if h ≤ s.1 then (h, s.2 + 1) else (h, 0)

/-- The loop state `(last_h, idle)` before round `t`, starting from
`last_h, idle = 0, 0` (`offer.py` line 34). -/
def scrollIter (hs : Nat → Nat) : Nat → Nat × Nat
  | 0 => (0, 0)
  | t + 1 => scrollStep (scrollIter hs t) (hs t)

/-- The `while idle < idle_rounds` loop terminates iff the idle
counter ever reaches the threshold. -/
def ScrollStops (hs : Nat → Nat) (n : Nat) : Prop :=
  ∃ t, n ≤ (scrollIter hs t).2

/-- Page actions `auto_scroll` issues, in order. -/
inductive ScrAct where
  | toBottom : ScrAct
  | wait (ms : Nat) : ScrAct
  | measure (h : Nat) : ScrAct
  | toTop : ScrAct
  deriving DecidableEq, Repr

/-- Fuel-indexed run of `auto_scroll`'s loop from round `t` in state
`s`: `some trace` when the loop exits within `fuel` rounds (the trace
ends with the scroll back to the top, `offer.py` line 44), `none` when
the fuel runs out first. -/
def autoScrollAux (hs : Nat → Nat) (n delay : Nat) :
    Nat → Nat → Nat × Nat → Option (List ScrAct)
  | 0, _, _ => none
  | fuel + 1, t, s =>
    if s.2 < n then
      match autoScrollAux hs n delay fuel (t + 1) (scrollStep s (hs t)) with
      | none => none
      | some tr =>
        some (ScrAct.toBottom :: ScrAct.wait delay :: ScrAct.measure (hs t) :: tr)
    else some [ScrAct.toTop]

/-- `auto_scroll(page, idle_rounds=n, delay_ms=delay)` with `fuel`
rounds of budget. -/
def autoScroll (hs : Nat → Nat) (n delay fuel : Nat) : Option (List ScrAct) :=
  autoScrollAux hs n delay fuel 0 (0, 0)

/-- The `last_h` value round `t` compares against: the previous
round's measurement, or the initial `0` at round 0. -/
def prevH (hs : Nat → Nat) : Nat → Nat
  | 0 => 0
  | t + 1 => hs t

/-- Round `t` of the measured height sequence did not increase the
height: its measurement is at most the `last_h` it is compared
against. -/
def NonIncStep (hs : Nat → Nat) (t : Nat) : Prop :=
  hs t ≤ prevH hs t

/-! ## Helper lemmas -/

theorem decodeRec_encodeRec (r : Rec) : decodeRec (encodeRec r) = some r := by
  obtain ⟨b, d, t, c, l⟩ := r
  cases d with
  | none => rfl
  | some p =>
    simp only [encodeRec, decodeRec, encOpt]
    rw [if_pos (by exact_mod_cast Nat.zero_le p)]
    simp

theorem recsOfJson_encode (rows : List Rec) :
    recsOfJson (Json.arr (rows.map encodeRec)) = rows := by
  simp only [recsOfJson, List.filterMap_map]
  have h : (decodeRec ∘ encodeRec) = some ∘ id := by
    funext r
    exact decodeRec_encodeRec r
  rw [h, List.filterMap_eq_map, List.map_id]

theorem mem_dedupAux (l : List Rec) :
    ∀ (seen : List (String × String × String)) (r : Rec),
      r ∈ dedupAux seen l ↔
        tkey r ∉ seen ∧ l.find? (fun x => decide (tkey x = tkey r)) = some r := by
  induction l with
  | nil =>
    intro seen r
    simp [dedupAux]
  | cons a rs ih =>
    intro seen r
    rw [show dedupAux seen (a :: rs) =
          if tkey a ∈ seen then dedupAux seen rs
          else a :: dedupAux (tkey a :: seen) rs from rfl]
    by_cases he : tkey a = tkey r
    · rw [@List.find?_cons_of_pos _ (fun x => decide (tkey x = tkey r)) a rs
            (decide_eq_true he)]
      by_cases ha : tkey a ∈ seen
      · rw [if_pos ha, ih]
        constructor
        · rintro ⟨hns, -⟩
          exact absurd (he ▸ ha) hns
        · rintro ⟨hns, -⟩
          exact absurd (he ▸ ha) hns
      · rw [if_neg ha, List.mem_cons, ih]
        constructor
        · rintro (rfl | ⟨hns, -⟩)
          · exact ⟨he ▸ ha, rfl⟩
          · exact absurd (List.mem_cons_self _ _) (he ▸ hns)
        · rintro ⟨-, har⟩
          exact Or.inl (Option.some.inj har).symm
    · rw [@List.find?_cons_of_neg _ (fun x => decide (tkey x = tkey r)) a rs
            (by simpa using he)]
      by_cases ha : tkey a ∈ seen
      · rw [if_pos ha, ih]
      · rw [if_neg ha, List.mem_cons, ih]
        constructor
        · rintro (rfl | ⟨hns, hf⟩)
          · exact absurd rfl he
          · exact ⟨fun hr => hns (List.mem_cons_of_mem _ hr), hf⟩
        · rintro ⟨hns, hf⟩
          refine Or.inr ⟨?_, hf⟩
          rw [List.mem_cons]
          rintro (heq | hmem)
          · exact he heq.symm
          · exact hns hmem

theorem mem_dedupTriple (l : List Rec) (r : Rec) :
    r ∈ dedupTriple l ↔ l.find? (fun x => decide (tkey x = tkey r)) = some r := by
  rw [dedupTriple, mem_dedupAux]
  simp

theorem pairwise_dedupAux (l : List Rec) :
    ∀ seen, (dedupAux seen l).Pairwise (fun a b => tkey a ≠ tkey b) := by
  induction l with
  | nil =>
    intro seen
    simp [dedupAux]
  | cons a rs ih =>
    intro seen
    rw [show dedupAux seen (a :: rs) =
          if tkey a ∈ seen then dedupAux seen rs
          else a :: dedupAux (tkey a :: seen) rs from rfl]
    by_cases ha : tkey a ∈ seen
    · rw [if_pos ha]
      exact ih seen
    · rw [if_neg ha]
      refine List.pairwise_cons.mpr ⟨?_, ih _⟩
      intro b hb hab
      have hns : tkey b ∉ tkey a :: seen :=
        ((mem_dedupAux rs (tkey a :: seen) b).1 hb).1
      exact hns (hab ▸ List.mem_cons_self _ _)

theorem pctKeyInt_inj {d1 d2 : Option Nat} (h : pctKeyInt d1 = pctKeyInt d2) :
    d1 = d2 := by
  cases d1 <;> cases d2 <;> simp_all [pctKeyInt] <;> omega

theorem sortLE_imp_claimRel {a b : Rec} (h : sortLE a b) : claimRel a b := by
  rcases h with h | ⟨h1, h2⟩
  · cases ha : a.discount_percent with
    | none =>
      exfalso
      cases hb : b.discount_percent with
      | none => simp [skey, pctKeyInt, ha, hb] at h
      | some p2 => simp [skey, pctKeyInt, ha, hb] at h; omega
    | some p1 =>
      cases hb : b.discount_percent with
      | none => exact Or.inr (Or.inr ⟨by simp [ha], hb⟩)
      | some p2 =>
        refine Or.inl ⟨p1, p2, ha, hb, ?_⟩
        simp only [skey, pctKeyInt, ha, hb] at h
        omega
  · exact Or.inr (Or.inl ⟨pctKeyInt_inj h1, h2⟩)

theorem sortLE_absent {a b : Rec} (h : sortLE a b)
    (ha : a.discount_percent = none) : b.discount_percent = none := by
  cases hb : b.discount_percent with
  | none => rfl
  | some p =>
    exfalso
    rcases h with h | ⟨h1, -⟩
    · simp only [skey, pctKeyInt, ha, hb] at h
      omega
    · simp only [skey, pctKeyInt, ha, hb] at h1
      omega

theorem keypair_eq_sortLE {a b : Rec}
    (h : (a.discount_percent, a.brand) = (b.discount_percent, b.brand)) :
    sortLE a b := by
  have h1 : a.discount_percent = b.discount_percent := congrArg Prod.fst h
  have h2 : a.brand = b.brand := congrArg Prod.snd h
  exact Or.inr ⟨by simp [skey, h1], le_of_eq h2⟩

theorem filter_orderedInsert_keypair (k : Option Nat × String) (a : Rec)
    (l : List Rec) :
    (l.orderedInsert sortLE a).filter
        (fun r => decide ((r.discount_percent, r.brand) = k)) =
      if (a.discount_percent, a.brand) = k then
        a :: l.filter (fun r => decide ((r.discount_percent, r.brand) = k))
      else l.filter (fun r => decide ((r.discount_percent, r.brand) = k)) := by
  induction l with
  | nil =>
    rw [List.orderedInsert_nil]
    by_cases hk : (a.discount_percent, a.brand) = k <;>
      simp [List.filter_cons, hk]
  | cons b bs ih =>
    rw [List.orderedInsert]
    by_cases hab : sortLE a b
    · rw [if_pos hab]
      by_cases hk : (a.discount_percent, a.brand) = k <;>
        simp [List.filter_cons, hk]
    · rw [if_neg hab, List.filter_cons, List.filter_cons, ih]
      by_cases hka : (a.discount_percent, a.brand) = k
      · have hkb : ¬ ((b.discount_percent, b.brand) = k) := by
          intro hkb
          exact hab (keypair_eq_sortLE (hka.trans hkb.symm))
        simp [hka, hkb, List.filter_cons]
      · simp [hka]

theorem filter_sortRecs_keypair (k : Option Nat × String) (l : List Rec) :
    (sortRecs l).filter (fun r => decide ((r.discount_percent, r.brand) = k)) =
      l.filter (fun r => decide ((r.discount_percent, r.brand) = k)) := by
  induction l with
  | nil => rfl
  | cons a as ih =>
    rw [show sortRecs (a :: as) =
          (sortRecs as).orderedInsert sortLE a from rfl,
        filter_orderedInsert_keypair, ih, List.filter_cons]
    by_cases hk : (a.discount_percent, a.brand) = k <;> simp [hk]

theorem scrollIter_fst (hs : Nat → Nat) (t : Nat) :
    (scrollIter hs t).1 = prevH hs t := by
  cases t with
  | zero => rfl
  | succ t =>
    show (scrollStep (scrollIter hs t) (hs t)).1 = hs t
    unfold scrollStep
    split <;> rfl

theorem scrollIter_succ_snd (hs : Nat → Nat) (t : Nat) :
    (scrollIter hs (t + 1)).2 =
      if hs t ≤ prevH hs t then (scrollIter hs t).2 + 1 else 0 := by
  show (scrollStep (scrollIter hs t) (hs t)).2 = _
  unfold scrollStep
  rw [scrollIter_fst]
  by_cases h : hs t ≤ prevH hs t <;> simp [h]

theorem scrollIter_snd_le (hs : Nat → Nat) : ∀ t, (scrollIter hs t).2 ≤ t
  | 0 => Nat.le_refl 0
  | t + 1 => by
    rw [scrollIter_succ_snd]
    split
    · exact Nat.succ_le_succ (scrollIter_snd_le hs t)
    · exact Nat.zero_le _

theorem nonInc_of_counter (hs : Nat → Nat) :
    ∀ t k, k ≤ (scrollIter hs t).2 → ∀ j, j < k → NonIncStep hs (t - k + j) := by
  intro t
  induction t with
  | zero =>
    intro k hk j hj
    have h0 : (scrollIter hs 0).2 = 0 := rfl
    omega
  | succ t ih =>
    intro k hk j hj
    rw [scrollIter_succ_snd] at hk
    by_cases hni : hs t ≤ prevH hs t
    · rw [if_pos hni] at hk
      match k, hj with
      | k' + 1, hj =>
        have hk' : k' ≤ (scrollIter hs t).2 := Nat.succ_le_succ_iff.mp hk
        have hkt : k' ≤ t := le_trans hk' (scrollIter_snd_le hs t)
        rw [Nat.succ_sub_succ]
        rcases Nat.lt_or_ge j k' with hjk | hjk
        · exact ih k' hk' j hjk
        · have hjeq : j = k' := Nat.le_antisymm (Nat.lt_succ_iff.mp hj) hjk
          subst hjeq
          rw [Nat.sub_add_cancel hkt]
          exact hni
    · rw [if_neg hni] at hk
      omega

theorem scrollStops_iff_window (hs : Nat → Nat) (n : Nat) :
    ScrollStops hs n ↔ ∃ t, ∀ j, j < n → NonIncStep hs (t + j) := by
  constructor
  · rintro ⟨T, hT⟩
    exact ⟨T - n, fun j hj => nonInc_of_counter hs T n hT j hj⟩
  · rintro ⟨t, hw⟩
    have key : ∀ j, j ≤ n → j ≤ (scrollIter hs (t + j)).2 := by
      intro j
      induction j with
      | zero => intro _; exact Nat.zero_le _
      | succ j ihj =>
        intro hjn
        have hj' : j ≤ (scrollIter hs (t + j)).2 := ihj (Nat.le_of_succ_le hjn)
        have hcond : hs (t + j) ≤ prevH hs (t + j) := hw j (Nat.lt_of_succ_le hjn)
        rw [show t + (j + 1) = (t + j) + 1 from rfl, scrollIter_succ_snd,
            if_pos hcond]
        exact Nat.succ_le_succ hj'
    exact ⟨t + n, key n le_rfl⟩

theorem counter_first_hit (hs : Nat → Nat) (n : Nat) :
    ∀ T, (∀ t, t < T → (scrollIter hs t).2 < n) → n ≤ (scrollIter hs T).2 →
      (scrollIter hs T).2 = n := by
  intro T hlt hge
  cases T with
  | zero =>
    have h0 : (scrollIter hs 0).2 = 0 := rfl
    omega
  | succ t =>
    have hct : (scrollIter hs t).2 < n := hlt t (Nat.lt_succ_self t)
    rw [scrollIter_succ_snd] at hge ⊢
    by_cases hni : hs t ≤ prevH hs t
    · rw [if_pos hni] at hge ⊢
      omega
    · rw [if_neg hni] at hge ⊢
      omega

theorem autoScrollAux_isSome (hs : Nat → Nat) (n delay : Nat) :
    ∀ fuel t, (autoScrollAux hs n delay fuel t (scrollIter hs t)).isSome = true ↔
      ∃ u, u < fuel ∧ n ≤ (scrollIter hs (t + u)).2 := by
  intro fuel
  induction fuel with
  | zero =>
    intro t
    simp [autoScrollAux]
  | succ fuel ih =>
    intro t
    simp only [autoScrollAux]
    by_cases hc : (scrollIter hs t).2 < n
    · rw [if_pos hc]
      have hstep : scrollStep (scrollIter hs t) (hs t) = scrollIter hs (t + 1) := rfl
      rw [hstep]
      cases haux : autoScrollAux hs n delay fuel (t + 1) (scrollIter hs (t + 1)) with
      | none =>
        simp only [haux, Option.isSome_none]
        constructor
        · intro h
          exact absurd h (by simp)
        · rintro ⟨u, hu, hcu⟩
          exfalso
          match u, hcu with
          | 0, hcu =>
            rw [Nat.add_zero] at hcu
            exact absurd hcu (by omega)
          | u' + 1, hcu =>
            have : ∃ v, v < fuel ∧ n ≤ (scrollIter hs (t + 1 + v)).2 :=
              ⟨u', by omega, by rw [show t + 1 + u' = t + (u' + 1) by omega]; exact hcu⟩
            have hsome := (ih (t + 1)).mpr this
            rw [haux] at hsome
            exact absurd hsome (by simp)
      | some tr =>
        simp only [haux, Option.isSome_some, true_iff]
        have hsome : (autoScrollAux hs n delay fuel (t + 1) (scrollIter hs (t + 1))).isSome
            = true := by rw [haux]; rfl
        obtain ⟨u, hu, hcu⟩ := (ih (t + 1)).mp hsome
        exact ⟨u + 1, by omega, by rw [show t + (u + 1) = t + 1 + u by omega]; exact hcu⟩
    · rw [if_neg hc]
      simp only [Option.isSome_some, true_iff]
      exact ⟨0, Nat.succ_pos fuel, by rw [Nat.add_zero]; exact Nat.le_of_not_lt hc⟩

theorem autoScrollAux_ends_top (hs : Nat → Nat) (n delay : Nat) :
    ∀ fuel t s tr, autoScrollAux hs n delay fuel t s = some tr →
      tr.getLast? = some ScrAct.toTop := by
  intro fuel
  induction fuel with
  | zero =>
    intro t s tr h
    simp [autoScrollAux] at h
  | succ fuel ih =>
    intro t s tr h
    simp only [autoScrollAux] at h
    by_cases hc : s.2 < n
    · rw [if_pos hc] at h
      cases haux : autoScrollAux hs n delay fuel (t + 1) (scrollStep s (hs t)) with
      | none =>
        rw [haux] at h
        exact absurd h (by simp)
      | some tr' =>
        rw [haux] at h
        have htr : tr =
            ScrAct.toBottom :: ScrAct.wait delay :: ScrAct.measure (hs t) :: tr' :=
          (Option.some.inj h).symm
        subst htr
        have hlast := ih (t + 1) (scrollStep s (hs t)) tr' haux
        have hne : tr' ≠ [] := by
          intro hnil
          rw [hnil] at hlast
          simp at hlast
        obtain ⟨x, xs, rfl⟩ := List.exists_cons_of_ne_nil hne
        simpa [List.getLast?_cons_cons] using hlast
    · rw [if_neg hc] at h
      have htr : tr = [ScrAct.toTop] := (Option.some.inj h).symm
      subst htr
      rfl

theorem scrollStops_iff_trace (hs : Nat → Nat) (n delay : Nat) :
    ScrollStops hs n ↔ ∃ fuel tr, autoScroll hs n delay fuel = some tr := by
  constructor
  · rintro ⟨T, hT⟩
    have hsome := (autoScrollAux_isSome hs n delay (T + 1) 0).mpr
      ⟨T, Nat.lt_succ_self T, by rw [Nat.zero_add]; exact hT⟩
    obtain ⟨tr, htr⟩ := Option.isSome_iff_exists.mp hsome
    exact ⟨T + 1, tr, htr⟩
  · rintro ⟨fuel, tr, htr⟩
    have hsome : (autoScrollAux hs n delay fuel 0 (scrollIter hs 0)).isSome = true := by
      rw [show autoScrollAux hs n delay fuel 0 (scrollIter hs 0) =
            autoScroll hs n delay fuel from rfl, htr]
      rfl
    obtain ⟨u, -, hcu⟩ := (autoScrollAux_isSome hs n delay fuel 0).mp hsome
    exact ⟨u, by rw [Nat.zero_add] at hcu; exact hcu⟩

theorem scrollIter_strictly_growing :
    ∀ t, scrollIter (fun t => t + 1) t = (t, 0) := by
  intro t
  induction t with
  | zero => rfl
  | succ t ih =>
    show scrollStep (scrollIter (fun t => t + 1) t) (t + 1) = (t + 1, 0)
    rw [ih]
    unfold scrollStep
    rw [if_neg (by omega)]

theorem asciiSpace_not_digit (c : Char) (h : isAsciiSpace c = true) :
    isAsciiDigit c = false := by
  rw [isAsciiSpace] at h
  simp only [Bool.or_eq_true, Bool.and_eq_true, decide_eq_true_eq,
    beq_iff_eq] at h
  cases hd : isAsciiDigit c with
  | false => rfl
  | true =>
    exfalso
    rw [isAsciiDigit, Bool.and_eq_true] at hd
    have h1 : 48 ≤ c.toNat := of_decide_eq_true hd.1
    have h2 : c.toNat ≤ 57 := of_decide_eq_true hd.2
    rcases h with (⟨a, b⟩ | ⟨a, b⟩) | a <;> omega

theorem skipWsG_eq_dropWhile (isSp : Char → Bool) (l : List Char) :
    skipWsG isSp l = l.dropWhile isSp := by
  induction l with
  | nil => rfl
  | cons c cs ih =>
    rw [skipWsG, List.dropWhile_cons]
    by_cases h : isSp c = true
    · rw [if_pos h, if_pos h, ih]
    · rw [if_neg h, if_neg h]

theorem skipWsG_space_append (isSp : Char → Bool) {ws : List Char}
    (l : List Char) (hw : ws.all isSp = true) :
    skipWsG isSp (ws ++ l) = skipWsG isSp l := by
  induction ws with
  | nil => rfl
  | cons w ws' ih =>
    have hw' : isSp w = true ∧ ws'.all isSp = true := by
      simpa [List.all_cons] using hw
    rw [List.cons_append, skipWsG, if_pos hw'.1]
    exact ih hw'.2

theorem tryDigitsG_eq_some_iff (isDig isSp : Char → Bool) (dval : Char → Nat)
    (hps : isSp '%' = false) (k : Nat) (cs : List Char) (n : Nat) :
    tryDigitsG isDig isSp dval k cs = some n ↔
      ∃ ds ws rest, cs = ds ++ (ws ++ '%' :: rest) ∧ ds.length = k ∧
        ds.all isDig = true ∧ ws.all isSp = true ∧
        n = digitsValG dval ds := by
  constructor
  · intro h
    rw [tryDigitsG] at h
    by_cases hcond :
        (decide ((cs.take k).length = k) && (cs.take k).all isDig) = true
    · rw [if_pos hcond] at h
      rw [Bool.and_eq_true] at hcond
      obtain ⟨hlen, hall⟩ := hcond
      have hlen' : (cs.take k).length = k := of_decide_eq_true hlen
      cases hskip : skipWsG isSp (cs.drop k) with
      | nil =>
        rw [hskip] at h
        exact absurd h (by simp)
      | cons c rest =>
        rw [hskip] at h
        have h' : (if c = '%' then some (digitsValG dval (cs.take k)) else none)
            = some n := h
        by_cases hc : c = '%'
        · subst hc
          rw [if_pos rfl] at h'
          have hn : n = digitsValG dval (cs.take k) := (Option.some.inj h').symm
          refine ⟨cs.take k, (cs.drop k).takeWhile isSp, rest,
            ?_, hlen', hall, ?_, hn⟩
          · have hdw : (cs.drop k).dropWhile isSp = '%' :: rest := by
              rw [← skipWsG_eq_dropWhile, hskip]
            have hsplit : (cs.drop k).takeWhile isSp ++ ('%' :: rest) =
                cs.drop k := by
              rw [← hdw]
              exact List.takeWhile_append_dropWhile isSp (cs.drop k)
            conv_lhs => rw [← List.take_append_drop k cs]
            rw [hsplit]
          · exact List.all_eq_true.mpr fun x hx => List.mem_takeWhile_imp hx
        · rw [if_neg hc] at h'
          exact absurd h' (by simp)
    · rw [if_neg hcond] at h
      exact absurd h (by simp)
  · rintro ⟨ds, ws, rest, hcs, hlen, hd, hw, hn⟩
    have htake : cs.take k = ds := by
      rw [hcs, ← hlen]
      exact List.take_left ds (ws ++ '%' :: rest)
    have hdrop : cs.drop k = ws ++ '%' :: rest := by
      rw [hcs, ← hlen]
      exact List.drop_left ds (ws ++ '%' :: rest)
    rw [tryDigitsG, htake, hdrop,
        if_pos (by simp [hlen, hd]), skipWsG_space_append isSp _ hw,
        show skipWsG isSp ('%' :: rest) = '%' :: rest from by
          rw [show skipWsG isSp ('%' :: rest) =
                if isSp '%' = true then skipWsG isSp rest else '%' :: rest
              from rfl,
              if_neg (by simp [hps])]]
    simp [hn]

theorem no_longer_digit_runG (isDig isSp : Char → Bool)
    (hpd : isDig '%' = false)
    (hsd : ∀ c, isSp c = true → isDig c = false)
    {cs ds ws rest ds' tail : List Char}
    (h1 : cs = ds ++ (ws ++ '%' :: rest)) (hw1 : ws.all isSp = true)
    (h2 : cs = ds' ++ tail) (hd2 : ds'.all isDig = true)
    (hlt : ds.length < ds'.length) : False := by
  have hdrop1 : cs.drop ds.length = ws ++ '%' :: rest := by
    rw [h1]
    exact List.drop_left ds (ws ++ '%' :: rest)
  have hdrop2 : cs.drop ds.length = ds'.drop ds.length ++ tail := by
    rw [h2, List.drop_append_eq_append_drop,
        show ds.length - ds'.length = 0 by omega, List.drop_zero]
  have hne : ds'.drop ds.length ≠ [] := by
    rw [← List.length_pos, List.length_drop]
    omega
  obtain ⟨c, ctail, hc⟩ := List.exists_cons_of_ne_nil hne
  have hcd : isDig c = true := by
    have hcm : c ∈ ds' := List.mem_of_mem_drop (hc ▸ List.mem_cons_self c ctail)
    exact List.all_eq_true.mp hd2 c hcm
  rw [hc] at hdrop2
  rw [hdrop1] at hdrop2
  cases ws with
  | nil =>
    have hpc : '%' = c := (List.cons.inj hdrop2).1
    rw [← hpc] at hcd
    rw [hpd] at hcd
    exact Bool.noConfusion hcd
  | cons w ws' =>
    have hwc : w = c := (List.cons.inj hdrop2).1
    have hws : isSp w = true :=
      List.all_eq_true.mp hw1 w (List.mem_cons_self w ws')
    rw [hwc] at hws
    rw [hsd c hws] at hcd
    exact Bool.noConfusion hcd

theorem digit_run_length_uniqueG (isDig isSp : Char → Bool)
    (hpd : isDig '%' = false)
    (hsd : ∀ c, isSp c = true → isDig c = false)
    {cs ds ws rest ds' ws' rest' : List Char}
    (h1 : cs = ds ++ (ws ++ '%' :: rest)) (hd1 : ds.all isDig = true)
    (hw1 : ws.all isSp = true)
    (h2 : cs = ds' ++ (ws' ++ '%' :: rest')) (hd2 : ds'.all isDig = true)
    (hw2 : ws'.all isSp = true) :
    ds.length = ds'.length := by
  rcases Nat.lt_trichotomy ds.length ds'.length with h | h | h
  · exact absurd h
      (fun hlt => no_longer_digit_runG isDig isSp hpd hsd h1 hw1 h2 hd2 hlt)
  · exact h
  · exact absurd h
      (fun hlt => no_longer_digit_runG isDig isSp hpd hsd h2 hw2 h1 hd1 hlt)

theorem tryDigitsG_ne_len_none (isDig isSp : Char → Bool) (dval : Char → Nat)
    (hps : isSp '%' = false) (hpd : isDig '%' = false)
    (hsd : ∀ c, isSp c = true → isDig c = false)
    {cs ds ws rest : List Char} {k' : Nat}
    (hcs : cs = ds ++ (ws ++ '%' :: rest)) (hd : ds.all isDig = true)
    (hw : ws.all isSp = true) (hne : k' ≠ ds.length) :
    tryDigitsG isDig isSp dval k' cs = none := by
  cases hk : tryDigitsG isDig isSp dval k' cs with
  | none => rfl
  | some m =>
    obtain ⟨ds', ws', rest', hcs', hlen', hd', hw', -⟩ :=
      (tryDigitsG_eq_some_iff isDig isSp dval hps k' cs m).mp hk
    have hlen : ds'.length = ds.length :=
      digit_run_length_uniqueG isDig isSp hpd hsd hcs' hd' hw' hcs hd hw
    rw [hlen'] at hlen
    exact absurd hlen hne

theorem spec_of_tryDigitsG (isDig isSp : Char → Bool) (dval : Char → Nat)
    (hps : isSp '%' = false) {k : Nat} {cs : List Char} {n : Nat}
    (h : tryDigitsG isDig isSp dval k cs = some n) (hge : 1 ≤ k) (hle : k ≤ 3) :
    SpecMatchAtG isDig isSp dval cs 0 n := by
  obtain ⟨ds, ws, rest, hcs, hlen, hd, hw, hn⟩ :=
    (tryDigitsG_eq_some_iff isDig isSp dval hps k cs n).mp h
  exact ⟨[], ds, ws, rest, by simpa using hcs, rfl, by omega, by omega, hd, hw, hn⟩

theorem matchHereG_eq_some_iff (isDig isSp : Char → Bool) (dval : Char → Nat)
    (hps : isSp '%' = false) (hpd : isDig '%' = false)
    (hsd : ∀ c, isSp c = true → isDig c = false)
    (cs : List Char) (n : Nat) :
    matchHereG isDig isSp dval cs = some n ↔
      SpecMatchAtG isDig isSp dval cs 0 n := by
  constructor
  · intro h
    rw [matchHereG] at h
    cases h3 : tryDigitsG isDig isSp dval 3 cs with
    | some m =>
      rw [h3] at h
      have hm : m = n := Option.some.inj h
      subst hm
      exact spec_of_tryDigitsG isDig isSp dval hps h3 (by omega) (by omega)
    | none =>
      rw [h3] at h
      cases h2 : tryDigitsG isDig isSp dval 2 cs with
      | some m =>
        rw [h2] at h
        have hm : m = n := Option.some.inj h
        subst hm
        exact spec_of_tryDigitsG isDig isSp dval hps h2 (by omega) (by omega)
      | none =>
        rw [h2] at h
        exact spec_of_tryDigitsG isDig isSp dval hps h (by omega) (by omega)
  · rintro ⟨pre, ds, ws, rest, hcs, hp, hge1, hle3, hd, hw, hn⟩
    have hpre : pre = [] := List.length_eq_zero.mp hp
    subst hpre
    rw [List.nil_append] at hcs
    have htryk : tryDigitsG isDig isSp dval ds.length cs = some n :=
      (tryDigitsG_eq_some_iff isDig isSp dval hps ds.length cs n).mpr
        ⟨ds, ws, rest, hcs, rfl, hd, hw, hn⟩
    have hcase : ds.length = 1 ∨ ds.length = 2 ∨ ds.length = 3 := by omega
    rw [matchHereG]
    rcases hcase with hk | hk | hk
    · rw [tryDigitsG_ne_len_none isDig isSp dval hps hpd hsd hcs hd hw (by omega),
          tryDigitsG_ne_len_none isDig isSp dval hps hpd hsd hcs hd hw (by omega),
          ← hk, htryk]
    · rw [tryDigitsG_ne_len_none isDig isSp dval hps hpd hsd hcs hd hw (by omega),
          ← hk, htryk]
    · rw [← hk, htryk]

theorem specMatchAtG_nil (isDig isSp : Char → Bool) (dval : Char → Nat)
    (p n : Nat) : ¬ SpecMatchAtG isDig isSp dval [] p n := by
  rintro ⟨pre, ds, ws, rest, hcs, -, -, -, -, -, -⟩
  have hlen := congrArg List.length hcs
  simp [List.length_append] at hlen
  omega

theorem specMatchAtG_cons_succ (isDig isSp : Char → Bool) (dval : Char → Nat)
    (c : Char) (cs : List Char) (p n : Nat) :
    SpecMatchAtG isDig isSp dval (c :: cs) (p + 1) n ↔
      SpecMatchAtG isDig isSp dval cs p n := by
  constructor
  · rintro ⟨pre, ds, ws, rest, hcs, hp, h1, h2, h3, h4, h5⟩
    cases pre with
    | nil => simp at hp
    | cons c' pre' =>
      rw [List.cons_append] at hcs
      obtain ⟨-, hcs'⟩ := List.cons.inj hcs
      exact ⟨pre', ds, ws, rest, hcs', by simpa using hp, h1, h2, h3, h4, h5⟩
  · rintro ⟨pre, ds, ws, rest, hcs, hp, h1, h2, h3, h4, h5⟩
    exact ⟨c :: pre, ds, ws, rest, by rw [List.cons_append, hcs],
      by simp [hp], h1, h2, h3, h4, h5⟩

theorem pctSearchAuxG_some_of_spec (isDig isSp : Char → Bool) (dval : Char → Nat)
    (hps : isSp '%' = false) (hpd : isDig '%' = false)
    (hsd : ∀ c, isSp c = true → isDig c = false) :
    ∀ cs p n, SpecMatchAtG isDig isSp dval cs p n →
      ∃ m, pctSearchAuxG isDig isSp dval cs = some m := by
  intro cs
  induction cs with
  | nil =>
    intro p n h
    exact absurd h (specMatchAtG_nil isDig isSp dval p n)
  | cons c cs ih =>
    intro p n h
    cases hm : matchHereG isDig isSp dval (c :: cs) with
    | some m =>
      exact ⟨m, by rw [pctSearchAuxG, hm]⟩
    | none =>
      cases p with
      | zero =>
        have hmm :=
          (matchHereG_eq_some_iff isDig isSp dval hps hpd hsd (c :: cs) n).mpr h
        rw [hm] at hmm
        exact Option.noConfusion hmm
      | succ p' =>
        obtain ⟨m, hm'⟩ :=
          ih p' n ((specMatchAtG_cons_succ isDig isSp dval c cs p' n).mp h)
        exact ⟨m, by rw [pctSearchAuxG, hm, hm']⟩

theorem pctSearchAuxG_eq_some_iff (isDig isSp : Char → Bool) (dval : Char → Nat)
    (hps : isSp '%' = false) (hpd : isDig '%' = false)
    (hsd : ∀ c, isSp c = true → isDig c = false) :
    ∀ cs n, pctSearchAuxG isDig isSp dval cs = some n ↔
      ∃ p, SpecMatchAtG isDig isSp dval cs p n ∧
        ∀ q m, SpecMatchAtG isDig isSp dval cs q m → p ≤ q := by
  intro cs
  induction cs with
  | nil =>
    intro n
    constructor
    · intro h
      exact Option.noConfusion h
    · rintro ⟨p, hp, -⟩
      exact absurd hp (specMatchAtG_nil isDig isSp dval p n)
  | cons c cs ih =>
    intro n
    cases hm : matchHereG isDig isSp dval (c :: cs) with
    | some n0 =>
      rw [show pctSearchAuxG isDig isSp dval (c :: cs) = some n0 from by
            rw [pctSearchAuxG, hm]]
      constructor
      · intro h
        have hn : n0 = n := Option.some.inj h
        subst hn
        exact ⟨0,
          (matchHereG_eq_some_iff isDig isSp dval hps hpd hsd (c :: cs) n0).mp hm,
          fun q m _ => Nat.zero_le q⟩
      · rintro ⟨p, hp, hmin⟩
        have hp0 : p = 0 :=
          Nat.le_zero.mp (hmin 0 n0
            ((matchHereG_eq_some_iff isDig isSp dval hps hpd hsd (c :: cs) n0).mp hm))
        subst hp0
        have hthis :=
          (matchHereG_eq_some_iff isDig isSp dval hps hpd hsd (c :: cs) n).mpr hp
        rw [hm] at hthis
        exact hthis
    | none =>
      rw [show pctSearchAuxG isDig isSp dval (c :: cs) =
            pctSearchAuxG isDig isSp dval cs from by
            rw [pctSearchAuxG, hm],
          ih n]
      constructor
      · rintro ⟨p, hp, hmin⟩
        refine ⟨p + 1, (specMatchAtG_cons_succ isDig isSp dval c cs p n).mpr hp, ?_⟩
        intro q m hq
        cases q with
        | zero =>
          have hq0 :=
            (matchHereG_eq_some_iff isDig isSp dval hps hpd hsd (c :: cs) m).mpr hq
          rw [hm] at hq0
          exact Option.noConfusion hq0
        | succ q' =>
          exact Nat.succ_le_succ
            (hmin q' m ((specMatchAtG_cons_succ isDig isSp dval c cs q' m).mp hq))
      · rintro ⟨p, hp, hmin⟩
        cases p with
        | zero =>
          have hp0 :=
            (matchHereG_eq_some_iff isDig isSp dval hps hpd hsd (c :: cs) n).mpr hp
          rw [hm] at hp0
          exact Option.noConfusion hp0
        | succ p' =>
          refine ⟨p', (specMatchAtG_cons_succ isDig isSp dval c cs p' n).mp hp, ?_⟩
          intro q m hq
          have hle := hmin (q + 1) m
            ((specMatchAtG_cons_succ isDig isSp dval c cs q m).mpr hq)
          omega

theorem pctSearchAuxG_eq_none_iff (isDig isSp : Char → Bool) (dval : Char → Nat)
    (hps : isSp '%' = false) (hpd : isDig '%' = false)
    (hsd : ∀ c, isSp c = true → isDig c = false) :
    ∀ cs, pctSearchAuxG isDig isSp dval cs = none ↔
      ∀ p n, ¬ SpecMatchAtG isDig isSp dval cs p n := by
  intro cs
  constructor
  · intro h p n hs
    obtain ⟨m, hm⟩ := pctSearchAuxG_some_of_spec isDig isSp dval hps hpd hsd cs p n hs
    rw [h] at hm
    exact Option.noConfusion hm
  · intro h
    cases hx : pctSearchAuxG isDig isSp dval cs with
    | none => rfl
    | some m =>
      obtain ⟨p, hp, -⟩ :=
        (pctSearchAuxG_eq_some_iff isDig isSp dval hps hpd hsd cs m).mp hx
      exact absurd hp (h p m)

theorem all_congr_of_mem {p q : Char → Bool} :
    ∀ l : List Char, (∀ c ∈ l, p c = q c) → l.all p = l.all q := by
  intro l
  induction l with
  | nil => intro _; rfl
  | cons c cs ih =>
    intro h
    rw [List.all_cons, List.all_cons, h c (List.mem_cons_self c cs),
        ih (fun x hx => h x (List.mem_cons_of_mem c hx))]

theorem skipWsG_congr {isSp isSp2 : Char → Bool} :
    ∀ l : List Char, (∀ c ∈ l, isSp c = isSp2 c) →
      skipWsG isSp l = skipWsG isSp2 l := by
  intro l
  induction l with
  | nil => intro _; rfl
  | cons c cs ih =>
    intro h
    rw [skipWsG, skipWsG, h c (List.mem_cons_self c cs)]
    by_cases hc : isSp2 c = true
    · rw [if_pos hc, if_pos hc]
      exact ih (fun x hx => h x (List.mem_cons_of_mem c hx))
    · rw [if_neg hc, if_neg hc]

theorem digitsValG_congr {isDig : Char → Bool} {dval dval2 : Char → Nat} :
    ∀ (ds : List Char) (a : Nat),
      (∀ c ∈ ds, isDig c = true → dval c = dval2 c) → ds.all isDig = true →
      List.foldl (fun a c => a * 10 + dval c) a ds =
        List.foldl (fun a c => a * 10 + dval2 c) a ds := by
  intro ds
  induction ds with
  | nil => intro a _ _; rfl
  | cons c cs ih =>
    intro a h hall
    have h1 : isDig c = true ∧ cs.all isDig = true := by
      simpa [List.all_cons] using hall
    rw [List.foldl_cons, List.foldl_cons, h c (List.mem_cons_self c cs) h1.1]
    exact ih _ (fun x hx => h x (List.mem_cons_of_mem c hx)) h1.2

theorem tryDigitsG_congr {isDig isSp isDig2 isSp2 : Char → Bool}
    {dval dval2 : Char → Nat} (k : Nat) (cs : List Char)
    (h : ∀ c ∈ cs, isDig c = isDig2 c ∧ isSp c = isSp2 c ∧
      (isDig c = true → dval c = dval2 c)) :
    tryDigitsG isDig isSp dval k cs = tryDigitsG isDig2 isSp2 dval2 k cs := by
  have htake : ∀ c ∈ cs.take k, c ∈ cs := fun c hc => List.take_subset k cs hc
  have hdrop : ∀ c ∈ cs.drop k, c ∈ cs := fun c hc => List.drop_subset k cs hc
  rw [tryDigitsG, tryDigitsG,
      all_congr_of_mem (cs.take k) (fun c hc => (h c (htake c hc)).1),
      skipWsG_congr (cs.drop k) (fun c hc => (h c (hdrop c hc)).2.1)]
  by_cases hcond :
      (decide ((cs.take k).length = k) && (cs.take k).all isDig2) = true
  · rw [if_pos hcond, if_pos hcond]
    have hall2 : (cs.take k).all isDig2 = true := by
      rw [Bool.and_eq_true] at hcond
      exact hcond.2
    have hdval : digitsValG dval (cs.take k) = digitsValG dval2 (cs.take k) := by
      rw [digitsValG, digitsValG]
      refine @digitsValG_congr isDig dval dval2 (cs.take k) 0 ?_ ?_
      · intro c hc hd
        exact (h c (htake c hc)).2.2 hd
      · rw [all_congr_of_mem (cs.take k) (fun c hc => (h c (htake c hc)).1)]
        exact hall2
    rw [hdval]
  · rw [if_neg hcond, if_neg hcond]

theorem matchHereG_congr {isDig isSp isDig2 isSp2 : Char → Bool}
    {dval dval2 : Char → Nat} (cs : List Char)
    (h : ∀ c ∈ cs, isDig c = isDig2 c ∧ isSp c = isSp2 c ∧
      (isDig c = true → dval c = dval2 c)) :
    matchHereG isDig isSp dval cs = matchHereG isDig2 isSp2 dval2 cs := by
  rw [matchHereG, matchHereG, tryDigitsG_congr 3 cs h, tryDigitsG_congr 2 cs h,
      tryDigitsG_congr 1 cs h]

theorem pctSearchAuxG_congr {isDig isSp isDig2 isSp2 : Char → Bool}
    {dval dval2 : Char → Nat} :
    ∀ cs : List Char,
      (∀ c ∈ cs, isDig c = isDig2 c ∧ isSp c = isSp2 c ∧
        (isDig c = true → dval c = dval2 c)) →
      pctSearchAuxG isDig isSp dval cs = pctSearchAuxG isDig2 isSp2 dval2 cs := by
  intro cs
  induction cs with
  | nil => intro _; rfl
  | cons c cs ih =>
    intro h
    rw [pctSearchAuxG, pctSearchAuxG, matchHereG_congr (c :: cs) h,
        ih (fun x hx => h x (List.mem_cons_of_mem c hx))]


theorem state_paths_ne :
    STATE_JSON ≠ STATE_PREV ∧ STATE_CSV ≠ STATE_PREV ∧ STATE_CSV ≠ STATE_JSON ∧
      STATE_JSON ≠ STATE_CSV ∧ STATE_PREV ≠ STATE_JSON ∧ STATE_PREV ≠ STATE_CSV := by
  refine ⟨?_, ?_, ?_, ?_, ?_, ?_⟩ <;> decide

end OfferScrape

namespace OfferScrape

/-! ## Claims -/

/-- C5: `load_json` never raises (it is a total function of the file
content); for a path whose file does not exist it returns the empty
sequence, and for a file whose content fails to parse as JSON it also
returns the empty sequence. -/
theorem c5_load_json_missing_or_corrupt (fs : FS) (path : String) :
    (fs path = FileContent.absent → load_json fs path = Json.arr []) ∧
    (fs path = FileContent.invalid → load_json fs path = Json.arr []) := by
  constructor <;> intro h <;> simp [load_json, h]

/-- Witness for C5 at concrete stores: a missing file and a corrupt
file both load as the empty array. -/
theorem c5_load_json_missing_or_corrupt_witness :
    load_json (fun _ => FileContent.absent) "offers_latest.prev.json" = Json.arr [] ∧
    load_json (fun _ => FileContent.invalid) "offers_latest.prev.json" = Json.arr [] :=
  ⟨(c5_load_json_missing_or_corrupt (fun _ => FileContent.absent) "offers_latest.prev.json").1 rfl,
   (c5_load_json_missing_or_corrupt (fun _ => FileContent.invalid) "offers_latest.prev.json").2 rfl⟩

/-- C10: `load_json` does not validate the shape of successfully
parsed content — whatever JSON value the file holds (object, number,
string, arbitrary array) is returned unchanged. -/
theorem c10_load_json_no_shape_validation (fs : FS) (path : String) (j : Json)
    (h : fs path = FileContent.valid j) : load_json fs path = j := by
  simp [load_json, h]

/-- Witness for C10: a file holding the JSON number `5` — not an array
of records — loads as that number, unchanged. -/
theorem c10_load_json_no_shape_validation_witness :
    load_json (fun _ => FileContent.valid (Json.num 5)) "offers_latest.prev.json" = Json.num 5 :=
  c10_load_json_no_shape_validation (fun _ => FileContent.valid (Json.num 5))
    "offers_latest.prev.json" (Json.num 5) rfl

/-- C9: `abs_url` with an empty or `None` href returns the base URL
itself, not the empty string; the fallback returning the original href
is taken only when the join raises (when the join succeeds, its result
is returned); and an extracted card with no readable href gets the
listing page URL as its link. -/
theorem c9_abs_url_empty_href (f : String → String → Option String) (b : String)
    (h : Option String) :
    ((h = none ∨ h = some "") → abs_url f b h = b) ∧
    (∀ href u, href ≠ "" → f b href = some u → abs_url f b (some href) = u) ∧
    (∀ c : RawCard, c.href = "" → (assembleCard f c).link = OFFERS_URL) := by
  refine ⟨?_, ?_, ?_⟩
  · rintro (rfl | rfl) <;> simp [abs_url, hrefOrEmpty, urljoinModel]
  · intro href u hne hf
    simp [abs_url, hrefOrEmpty, urljoinModel, hne, hf]
  · intro c hc
    simp [assembleCard, abs_url, hrefOrEmpty, urljoinModel, hc]

/-- Witness for C9: with a join that always succeeds with "J", a
`None` href resolves to the base, a non-empty href resolves to the
join's result, and a card with an empty href gets the listing URL. -/
theorem c9_abs_url_empty_href_witness :
    abs_url (fun _ _ => some "J") "base" none = "base" ∧
    abs_url (fun _ _ => some "J") "base" (some "x") = "J" ∧
    (assembleCard (fun _ _ => some "J") ⟨"B", "T", "C", ""⟩).link = OFFERS_URL :=
  ⟨(c9_abs_url_empty_href (fun _ _ => some "J") "base" none).1 (Or.inl rfl),
   (c9_abs_url_empty_href (fun _ _ => some "J") "base" none).2.1 "x" "J" (by decide) rfl,
   (c9_abs_url_empty_href (fun _ _ => some "J") "base" none).2.2 ⟨"B", "T", "C", ""⟩ rfl⟩

/-- C3: `diff` returns as `added` exactly the records of the current
snapshot whose `(brand, title)` key appears in no record of the
previous one, in current's order, and as `removed` exactly the records
of the previous snapshot whose key appears in no record of the current
one, in previous's order; a record whose key survives (even with other
fields changed) lands in neither list, and `diff S S` is empty. -/
theorem c3_diff_characterization (old new : List Rec) :
    (diff old new).1 = new.filter (fun o => decide (∀ p ∈ old, dkey p ≠ dkey o)) ∧
    (diff old new).2 = old.filter (fun o => decide (∀ p ∈ new, dkey p ≠ dkey o)) ∧
    (∀ r ∈ new, ∀ p ∈ old, dkey p = dkey r →
      r ∉ (diff old new).1 ∧ p ∉ (diff old new).2) ∧
    diff old old = ([], []) := by
  have hd1 : ∀ a b : List Rec, (diff a b).1 =
      b.filter (fun o => decide (dkey o ∈ b.map dkey ∧ dkey o ∉ a.map dkey)) :=
    fun _ _ => rfl
  have hd2 : ∀ a b : List Rec, (diff a b).2 =
      a.filter (fun o => decide (dkey o ∈ a.map dkey ∧ dkey o ∉ b.map dkey)) :=
    fun _ _ => rfl
  have hchar : ∀ a b : List Rec,
      (b.filter fun o => decide (dkey o ∈ b.map dkey ∧ dkey o ∉ a.map dkey)) =
        b.filter fun o => decide (∀ p ∈ a, dkey p ≠ dkey o) := by
    intro a b
    apply List.filter_congr
    intro o ho
    apply decide_eq_decide.mpr
    constructor
    · rintro ⟨-, hno⟩ p hp he
      exact hno (List.mem_map.mpr ⟨p, hp, he⟩)
    · intro hall
      refine ⟨List.mem_map.mpr ⟨o, ho, rfl⟩, fun hmem => ?_⟩
      obtain ⟨p, hp, he⟩ := List.mem_map.mp hmem
      exact hall p hp he
  have h1 : (diff old new).1 = new.filter (fun o => decide (∀ p ∈ old, dkey p ≠ dkey o)) :=
    (hd1 old new).trans (hchar old new)
  have h2 : (diff old new).2 = old.filter (fun o => decide (∀ p ∈ new, dkey p ≠ dkey o)) :=
    (hd2 old new).trans (hchar new old)
  refine ⟨h1, h2, ?_, ?_⟩
  · intro r hr p hp he
    constructor
    · rw [h1, List.mem_filter]
      rintro ⟨-, hdec⟩
      exact (of_decide_eq_true hdec) p hp he
    · rw [h2, List.mem_filter]
      rintro ⟨-, hdec⟩
      exact (of_decide_eq_true hdec) r hr he.symm
  · have h3 : (diff old old).1 = [] := by
      rw [(hd1 old old).trans (hchar old old), List.filter_eq_nil_iff]
      intro o ho hdec
      exact (of_decide_eq_true hdec) o ho rfl
    have h4 : (diff old old).2 = [] := by
      rw [(hd2 old old).trans (hchar old old), List.filter_eq_nil_iff]
      intro o ho hdec
      exact (of_decide_eq_true hdec) o ho rfl
    exact Prod.ext h3 h4

/-- Witness for C3 on the spec's scenario: previous holds Nike's
offer; current holds Nike (with a changed link) and Adidas; added is
exactly the Adidas record, removed is empty, and the Nike records land
in neither list. -/
theorem c3_diff_characterization_witness :
    (⟨"Nike", some 30, "30% off Shoes", "", "l2"⟩ : Rec) ∉
      (diff [⟨"Nike", some 30, "30% off Shoes", "", "l"⟩]
        [⟨"Nike", some 30, "30% off Shoes", "", "l2"⟩,
         ⟨"Adidas", some 20, "20% off Jackets", "", "l"⟩]).1 ∧
    (⟨"Nike", some 30, "30% off Shoes", "", "l"⟩ : Rec) ∉
      (diff [⟨"Nike", some 30, "30% off Shoes", "", "l"⟩]
        [⟨"Nike", some 30, "30% off Shoes", "", "l2"⟩,
         ⟨"Adidas", some 20, "20% off Jackets", "", "l"⟩]).2 :=
  (c3_diff_characterization [⟨"Nike", some 30, "30% off Shoes", "", "l"⟩]
    [⟨"Nike", some 30, "30% off Shoes", "", "l2"⟩,
     ⟨"Adidas", some 20, "20% off Jackets", "", "l"⟩]).2.2.1
    ⟨"Nike", some 30, "30% off Shoes", "", "l2"⟩ (by decide)
    ⟨"Nike", some 30, "30% off Shoes", "", "l"⟩ (by decide) rfl

/-- C4: `save_json` followed by `load_json` on the same path yields
the record list equal to the original (decoding the stored array gives
back exactly the input records), and an absent `discount_percent`
round-trips as JSON `null` — absence is encoded as `null` if and only
if the discount is absent, never as zero. -/
theorem c4_save_load_round_trip (rows : List Rec) (fs : FS) (path : String) :
    load_json (save_json rows fs path) path = Json.arr (rows.map encodeRec) ∧
    recsOfJson (load_json (save_json rows fs path) path) = rows ∧
    (∀ r : Rec, encOpt r.discount_percent = Json.null ↔ r.discount_percent = none) ∧
    (∀ r : Rec, r.discount_percent = none → encOpt r.discount_percent ≠ Json.num 0) := by
  have hload : load_json (save_json rows fs path) path = Json.arr (rows.map encodeRec) := by
    simp [load_json, save_json]
  refine ⟨hload, by rw [hload, recsOfJson_encode], ?_, ?_⟩
  · intro r
    cases hr : r.discount_percent <;> simp [encOpt]
  · intro r hr
    simp [hr, encOpt]

/-- C7: snapshot rotation across runs — the diff baseline of a run is
the previous-snapshot file as it stood before the run wrote anything;
at end of run both the latest file and the previous file hold the
run's rows (previous becomes a copy of latest); hence the next run's
diff compares the new rows against exactly the prior run's rows:
previous lags latest by one run and is read before being overwritten. -/
theorem c7_snapshot_rotation (fs : FS) (r1 r2 : List Rec) :
    (runModel fs r1).added = (diff (recsOfJson (load_json fs STATE_PREV)) r1).1 ∧
    (runModel fs r1).removed = (diff (recsOfJson (load_json fs STATE_PREV)) r1).2 ∧
    (runModel fs r1).fs STATE_JSON = FileContent.valid (Json.arr (r1.map encodeRec)) ∧
    (runModel fs r1).fs STATE_PREV = FileContent.valid (Json.arr (r1.map encodeRec)) ∧
    (runModel ((runModel fs r1).fs) r2).added = (diff r1 r2).1 ∧
    (runModel ((runModel fs r1).fs) r2).removed = (diff r1 r2).2 ∧
    (runModel ((runModel fs r1).fs) r2).fs STATE_PREV =
      FileContent.valid (Json.arr (r2.map encodeRec)) := by
  have hprev1 : (runModel fs r1).fs STATE_PREV =
      FileContent.valid (Json.arr (r1.map encodeRec)) := by
    simp [runModel, save_json]
  have hjson1 : (runModel fs r1).fs STATE_JSON =
      FileContent.valid (Json.arr (r1.map encodeRec)) := by
    simp [runModel, save_json, save_csv, state_paths_ne.1, state_paths_ne.2.2.2]
  have hbase2 : recsOfJson (load_json ((runModel fs r1).fs) STATE_PREV) = r1 := by
    rw [show load_json ((runModel fs r1).fs) STATE_PREV = Json.arr (r1.map encodeRec) by
          rw [load_json, hprev1],
        recsOfJson_encode]
  refine ⟨rfl, rfl, hjson1, hprev1, ?_, ?_, ?_⟩
  · show (diff (recsOfJson (load_json ((runModel fs r1).fs) STATE_PREV)) r2).1 = (diff r1 r2).1
    rw [hbase2]
  · show (diff (recsOfJson (load_json ((runModel fs r1).fs) STATE_PREV)) r2).2 = (diff r1 r2).2
    rw [hbase2]
  · simp [runModel, save_json]

/-- C2: `extract_cards` output never holds two records with the same
`(brand, title, link)` triple, and a record is in the output exactly
when it is the first record (in extraction order, over the assembled
records) bearing its triple — so the first occurrence is kept with all
its field values and every later duplicate is dropped. -/
theorem c2_dedup_by_triple (f : String → String → Option String)
    (cards : List RawCard) :
    (extract_cards f cards).Pairwise (fun a b => tkey a ≠ tkey b) ∧
    (∀ r : Rec, r ∈ extract_cards f cards ↔
      (cards.map (assembleCard f)).find?
        (fun x => decide (tkey x = tkey r)) = some r) := by
  constructor
  · have hperm :=
      List.perm_insertionSort sortLE (dedupTriple (cards.map (assembleCard f)))
    exact (List.Perm.pairwise_iff (fun h => h.symm) hperm).mpr
      (pairwise_dedupAux _ [])
  · intro r
    rw [show extract_cards f cards =
          sortRecs (dedupTriple (cards.map (assembleCard f))) from rfl,
        sortRecs, List.mem_insertionSort, mem_dedupTriple]

/-- C1: the output of `extract_cards` is sorted so that every adjacent
pair satisfies the spec's disjunction (strictly greater discount, or
equal discounts — both-absent included — with brands in order, or
present-before-absent); records with no percentage come after all
records with one; and the sort is stable: for every `(discount, brand)`
key the records bearing it appear in the output exactly as they appear
in first-seen extraction order (the deduplicated assembled list). -/
theorem c1_output_sorted (f : String → String → Option String)
    (cards : List RawCard) :
    (extract_cards f cards).Chain' claimRel ∧
    (extract_cards f cards).Pairwise
      (fun a b => a.discount_percent = none → b.discount_percent = none) ∧
    (∀ k : Option Nat × String,
      (extract_cards f cards).filter
          (fun r => decide ((r.discount_percent, r.brand) = k)) =
        (dedupTriple (cards.map (assembleCard f))).filter
          (fun r => decide ((r.discount_percent, r.brand) = k))) := by
  have hsorted : List.Pairwise sortLE (extract_cards f cards) :=
    List.sorted_insertionSort sortLE (dedupTriple (cards.map (assembleCard f)))
  refine ⟨?_, ?_, ?_⟩
  · exact (hsorted.imp fun h => sortLE_imp_claimRel h).chain'
  · exact hsorted.imp fun h ha => sortLE_absent h ha
  · intro k
    exact filter_sortRecs_keypair k _

/-- C8: the scroll loop starts from `last_h, idle = 0, 0`, bumps the
idle counter on every round whose measured height does not increase
and resets it to zero on an increase; at the first round where the
counter reaches the `idle_rounds` threshold it holds exactly that
threshold (the loop stops exactly then); the loop terminates iff the
height sequence eventually shows `idle_rounds` consecutive
non-increasing measurements; every terminating run ends by scrolling
back to the top; and a height sequence that keeps increasing on every
round (so never idles) makes the loop run forever — no other bound on
total rounds exists. -/
theorem c8_auto_scroll (hs : Nat → Nat) (n delay : Nat) :
    (scrollIter hs 0 = (0, 0) ∧
      ∀ t, scrollIter hs (t + 1) =
        (hs t, if hs t ≤ prevH hs t then (scrollIter hs t).2 + 1 else 0)) ∧
    (∀ T, (∀ t, t < T → (scrollIter hs t).2 < n) → n ≤ (scrollIter hs T).2 →
      (scrollIter hs T).2 = n) ∧
    (ScrollStops hs n ↔ ∃ t, ∀ j, j < n → NonIncStep hs (t + j)) ∧
    (ScrollStops hs n ↔ ∃ fuel tr, autoScroll hs n delay fuel = some tr) ∧
    (∀ fuel tr, autoScroll hs n delay fuel = some tr →
      tr.getLast? = some ScrAct.toTop) ∧
    ¬ ScrollStops (fun t => t + 1) 4 := by
  refine ⟨⟨rfl, fun t => ?_⟩, counter_first_hit hs n,
          scrollStops_iff_window hs n, scrollStops_iff_trace hs n delay,
          fun fuel tr h => autoScrollAux_ends_top hs n delay fuel 0 (0, 0) tr h,
          ?_⟩
  · refine Prod.ext ?_ (scrollIter_succ_snd hs t)
    rw [scrollIter_fst hs (t + 1)]
    rfl
  · rintro ⟨T, hT⟩
    rw [scrollIter_strictly_growing T] at hT
    exact absurd hT (by omega)

/-- Witness for C8 on concrete inputs: with a constant-zero height
sequence and threshold 1, the counter equals exactly 1 at the first
round it reaches it, and the run with fuel 2 produces the four-action
trace ending in the scroll back to the top. -/
theorem c8_auto_scroll_witness :
    (scrollIter (fun _ => 0) 1).2 = 1 ∧
    ([ScrAct.toBottom, ScrAct.wait 0, ScrAct.measure 0,
      ScrAct.toTop].getLast? = some ScrAct.toTop) :=
  ⟨(c8_auto_scroll (fun _ => 0) 1 0).2.1 1
      (by
        intro t ht
        have h0 : t = 0 := by omega
        subst h0
        exact Nat.zero_lt_one)
      (by decide),
   (c8_auto_scroll (fun _ => 0) 1 0).2.2.2.2.1 2
      [ScrAct.toBottom, ScrAct.wait 0, ScrAct.measure 0, ScrAct.toTop]
      (by decide)⟩

/-- C6: for every digit class, whitespace class and per-digit value
function of the regex engine satisfying the facts true of Python's
Unicode tables (the percent sign is neither a digit nor whitespace,
and no whitespace character is a digit), the percent extractor returns
exactly the integer value of the leftmost substring of 1–3 digits
followed by optional whitespace and a percent sign, returns nothing
exactly when no such substring exists, and never clamps; and whenever
the tables restrict below code point 128 to the ASCII fragments (as
Unicode's do), the spec's examples follow: "Up to 40% off" yields 40,
"50%off" yields 50, "No discount info" yields nothing, and "999% off"
yields 999 unclamped. -/
theorem c6_percent_extractor (isDig isSp : Char → Bool) (dval : Char → Nat)
    (hps : isSp '%' = false) (hpd : isDig '%' = false)
    (hsd : ∀ c, isSp c = true → isDig c = false) :
    (∀ cs n, pctSearchAuxG isDig isSp dval cs = some n ↔
      ∃ p, SpecMatchAtG isDig isSp dval cs p n ∧
        ∀ q m, SpecMatchAtG isDig isSp dval cs q m → p ≤ q) ∧
    (∀ cs, pctSearchAuxG isDig isSp dval cs = none ↔
      ∀ p n, ¬ SpecMatchAtG isDig isSp dval cs p n) ∧
    (AsciiAgree isDig isSp dval →
      pctSearchG isDig isSp dval "Up to 40% off" = some 40 ∧
      pctSearchG isDig isSp dval "50%off" = some 50 ∧
      pctSearchG isDig isSp dval "No discount info" = none ∧
      pctSearchG isDig isSp dval "999% off" = some 999) := by
  refine ⟨pctSearchAuxG_eq_some_iff isDig isSp dval hps hpd hsd,
          pctSearchAuxG_eq_none_iff isDig isSp dval hps hpd hsd, ?_⟩
  intro hag
  have hcongr : ∀ s : String, (∀ c ∈ s.data, c.toNat < 128) →
      pctSearchG isDig isSp dval s = pctSearch s := by
    intro s hs
    rw [pctSearchG, pctSearch, pctSearchG]
    exact pctSearchAuxG_congr s.data (fun c hc => hag c (hs c hc))
  refine ⟨?_, ?_, ?_, ?_⟩ <;>
    · rw [hcongr _ (by decide)]
      decide

/-- Witness for C6 at the ASCII instance of the character tables
(which satisfies every hypothesis of the theorem): the spec's four
examples, computed. -/
theorem c6_percent_extractor_witness :
    pctSearch "Up to 40% off" = some 40 ∧ pctSearch "50%off" = some 50 ∧
    pctSearch "No discount info" = none ∧ pctSearch "999% off" = some 999 :=
  (c6_percent_extractor isAsciiDigit isAsciiSpace asciiDigitVal
    (by decide) (by decide) asciiSpace_not_digit).2.2
    (fun c _ => ⟨rfl, rfl, fun _ => rfl⟩)

end OfferScrape
